import Mathlib

/-!
Verification development for the evalml repository excerpt.

The sources available are the test suites plus one data check; the implementation
modules `evalml/model_understanding/decision_boundary.py` and the pipeline classes
are not part of the excerpt.  Following the tests (which pin the exact behaviour of
the decision-boundary helpers by recomputing their expected output) and the
specification, we model the threshold-sweep engine and the pipeline-construction
checks as executable Lean definitions and prove the specified properties.

Numeric note: the Python code computes with IEEE floats; we model the arithmetic
with `ℚ`.  Rational division by zero is `0` in Lean, which coincides with the
zero-denominator conventions of the objective helpers (`0/0 = 0`).
-/

namespace Evalml

/-- Modelled from the spec: `_accuracy` of `evalml/model_understanding/decision_boundary.py`
(absent from the excerpt).  Its behaviour is pinned by `test_accuracy`, whose expected
values (`[0,0,100,100] → 0.0`, `[100,0,0,100] → 0.5`, `[50,50,50,50] → 0.5`,
`[40,20,10,30] → 0.6`) determine the closed form `(v₀ + v₁) / (v₀ + v₁ + v₂ + v₃)`. -/
def _accuracy : List ℕ → ℚ
  | [a, b, c, d] => ((a : ℚ) + b) / ((a : ℚ) + b + c + d)
  | _ => 0

/-- Modelled from the spec: `_recall` (absent from the excerpt), pinned by `test_recall`
(`[0,0,100,100] → 0`, `[100,0,0,100] → 0.5`, `[50,50,50,50] → 0.5`, `[40,20,10,30] → 4/7`):
`v₀ / (v₀ + v₃)`, a zero denominator yielding `0`. -/
def _recall : List ℕ → ℚ
  | [a, _, _, d] => (a : ℚ) / ((a : ℚ) + d)
  | _ => 0

/-- Modelled from the spec: `_precision` (absent from the excerpt), pinned by
`test_precision` (`[0,0,100,100] → 0`, `[100,0,0,100] → 1.0`, `[50,50,50,50] → 0.5`,
`[40,20,10,30] → 0.8`): `v₀ / (v₀ + v₂)`, a zero denominator yielding `0`. -/
def _precision : List ℕ → ℚ
  | [a, _, c, _] => (a : ℚ) / ((a : ℚ) + c)
  | _ => 0

/-- Modelled from the spec: `_balanced_accuracy` (absent from the excerpt), pinned by
`test_balanced_accuracy` (`[0,0,100,100] → 0.0`, `[100,0,0,100] → 0.25`,
`[50,50,50,50] → 0.5`, `[40,20,10,30] → 13/21`): the mean of `v₀ / (v₀ + v₃)` and
`v₁ / (v₁ + v₂)`, a zero denominator contributing `0` to its term. -/
def _balanced_accuracy : List ℕ → ℚ
  | [a, b, c, d] => ((a : ℚ) / ((a : ℚ) + d) + (b : ℚ) / ((b : ℚ) + c)) / 2
  | _ => 0

/-- Modelled from the spec: `_f1` (absent from the excerpt), pinned by `test_f1`:
the harmonic mean of `_precision` and `_recall`, `0` when both vanish. -/
def _f1 (v : List ℕ) : ℚ :=
  2 * (_precision v * _recall v) / (_precision v + _recall v)

/-- The five fixed objectives tracked by the threshold sweep. -/
inductive Objective : Type
  | accuracy
  | balanced_accuracy
  | precision
  | recall
  | f1
deriving DecidableEq, Fintype

/-- The metric function attached to each objective, as in the `objective_dict` of
`_find_confusion_matrix_objective_threshold`. -/
def Objective.fn : Objective → List ℕ → ℚ
  | .accuracy => _accuracy
  | .balanced_accuracy => _balanced_accuracy
  | .precision => _precision
  | .recall => _recall
  | .f1 => _f1

/-- One best-tracking update of the objective maximization: replace the recorded
`(best value, best threshold)` pair only when the new value is strictly greater. -/
def updateBest (b : ℚ × ℚ) (p : ℚ × ℚ) : ℚ × ℚ :=
  if b.1 < p.2 then (p.2, p.1) else b

/-- Modelled from the spec: the loop body of `_find_confusion_matrix_objective_threshold`
(absent from the excerpt), pinned by `test_find_confusion_matrix_objective_threshold`,
which recomputes the expected output: walking `ranges[:-1]` with the per-bin histogram
counts, accumulate `pos += pos_skew[i]`, `neg += neg_skew[i]`, set
`tp = total_pos - pos`, `fp = total_neg - neg`, append `cm = [tp, neg, fp, pos]`, and
for each objective replace the recorded `[best value, best threshold]` pair exactly
when the objective value at `cm` is strictly greater than the recorded value. -/
def sweepAux (total_pos total_neg : ℕ) :
    List ℕ → List ℕ → List ℚ → ℕ → ℕ → (Objective → ℚ × ℚ) →
      List (List ℕ) × (Objective → ℚ × ℚ)
  | p :: ps, n :: ns, r :: rs, cum_pos, cum_neg, best =>
      let cp := cum_pos + p
      let cn := cum_neg + n
      let cm := [total_pos - cp, cn, total_neg - cn, cp]
      let best1 := fun o => updateBest (best o) (r, o.fn cm)
      (cm :: (sweepAux total_pos total_neg ps ns rs cp cn best1).1,
        (sweepAux total_pos total_neg ps ns rs cp cn best1).2)
  | _, _, _, _, _, best => ([], best)

/-- Modelled from the spec: `_find_confusion_matrix_objective_threshold` (absent from
the excerpt); see `sweepAux`.  Totals are the histogram sums, the cumulative counts and
every objective's `[best value, best threshold]` pair start at zero. -/
def _find_confusion_matrix_objective_threshold
    (pos_skew neg_skew : List ℕ) (ranges : List ℚ) :
    List (List ℕ) × (Objective → ℚ × ℚ) :=
  sweepAux pos_skew.sum neg_skew.sum pos_skew neg_skew ranges 0 0 (fun _ => (0, 0))

/-- The confusion matrix the specification text prescribes at edge `i`:
`[tp, fn, fp, tn]` with `fn = cumulative_positive` and `tn = cumulative_negative`.
Written from the spec's words, to be compared with the code's output. -/
def specConfusionAt (pos_skew neg_skew : List ℕ) (i : ℕ) : List ℕ :=
  [pos_skew.sum - (pos_skew.take (i + 1)).sum,
    (pos_skew.take (i + 1)).sum,
    neg_skew.sum - (neg_skew.take (i + 1)).sum,
    (neg_skew.take (i + 1)).sum]

/-- The confusion matrix the code actually emits at edge `i`: slot 2 holds the
cumulative negative count and slot 4 the cumulative positive count. -/
def codeConfusionAt (pos_skew neg_skew : List ℕ) (i : ℕ) : List ℕ :=
  [pos_skew.sum - (pos_skew.take (i + 1)).sum,
    (neg_skew.take (i + 1)).sum,
    neg_skew.sum - (neg_skew.take (i + 1)).sum,
    (pos_skew.take (i + 1)).sum]

/-- The confusion-matrix list component of the sweep output. -/
def sweepConf (pos_skew neg_skew : List ℕ) (ranges : List ℚ) : List (List ℕ) :=
  (_find_confusion_matrix_objective_threshold pos_skew neg_skew ranges).1

/-- The `[best value, best threshold]` pair the sweep records for an objective. -/
def sweepBest (pos_skew neg_skew : List ℕ) (ranges : List ℚ) (o : Objective) : ℚ × ℚ :=
  (_find_confusion_matrix_objective_threshold pos_skew neg_skew ranges).2 o

/-- Does the value `v` fall in the bin `[lo, hi)`?  The final bin is closed at its
upper edge, matching a histogram over the closed unit interval. -/
def inBin (lo hi : ℚ) (isLast : Bool) (v : ℚ) : Bool :=
  decide (lo ≤ v) && (decide (v < hi) || (isLast && decide (v = hi)))

/-- Indices of the data rows whose value falls in the given bin, in row order. -/
def binIndices (data : List ℚ) (lo hi : ℚ) (isLast : Bool) : List ℕ :=
  (List.range data.length).filter (fun j => inBin lo hi isLast (data.getD j 0))

/-- Modelled from the spec: the per-bin walk of `_find_data_between_ranges` of
`evalml/model_understanding/decision_boundary.py` (absent from the excerpt): for each
pair of consecutive bin edges select the rows whose probability falls in that bin —
all of them when `top_k` is the sentinel `-1`, otherwise at most `top_k` of them,
chosen without replacement. -/
def _fdbr_aux (data : List ℚ) (top_k : ℤ) : List ℚ → List (List ℕ)
  | a :: b :: rest =>
      (if top_k = -1 then binIndices data a b rest.isEmpty
        else (binIndices data a b rest.isEmpty).take top_k.toNat) ::
        _fdbr_aux data top_k (b :: rest)
  | _ => []

/-- Modelled from the spec: `_find_data_between_ranges` (absent from the excerpt);
see `_fdbr_aux`. -/
def _find_data_between_ranges (data : List ℚ) (ranges : List ℚ) (top_k : ℤ) :
    List (List ℕ) :=
  _fdbr_aux data top_k ranges

/-- How many bins of `ranges` contain the value `v`. -/
def binsContaining (v : ℚ) : List ℚ → ℕ
  | a :: b :: rest =>
      (if inBin a b rest.isEmpty v then 1 else 0) + binsContaining v (b :: rest)
  | _ => 0

/-- Histogram of `vals` over consecutive bin edges, the final bin closed above, as
the histogram call of the sweep computes it. -/
def histogram (vals : List ℚ) : List ℚ → List ℕ
  | a :: b :: rest =>
      (vals.countP (fun v => inBin a b rest.isEmpty v)) :: histogram vals (b :: rest)
  | _ => []

/-- Modelled from the spec: `find_confusion_matrix_per_thresholds` of
`evalml/model_understanding/decision_boundary.py` (absent from the excerpt), after its
input validation: bin the predicted positive-class probabilities of the truly positive
rows and of the truly negative rows with one shared list of bin edges, run
`_find_confusion_matrix_objective_threshold` on the two histograms, and sample rows
per bin with `_find_data_between_ranges`.  A row is truly positive exactly when its
label equals the positive label; the computation consumes the probabilities only,
never the raw label tokens. -/
def find_confusion_matrix_per_thresholds {L : Type} [DecidableEq L]
    (proba : List ℚ) (y : List L) (pos : L) (ranges : List ℚ) (top_k : ℤ) :
    List ℕ × List ℕ × List (List ℕ) × List (List ℕ) × (Objective → ℚ × ℚ) :=
  let posProbs := ((proba.zip y).filter (fun q => decide (q.2 = pos))).map Prod.fst
  let negProbs := ((proba.zip y).filter (fun q => !decide (q.2 = pos))).map Prod.fst
  let pos_skew := histogram posProbs ranges
  let neg_skew := histogram negProbs ranges
  (pos_skew, neg_skew,
    (_find_confusion_matrix_objective_threshold pos_skew neg_skew ranges).1,
    _find_data_between_ranges proba ranges top_k,
    (_find_confusion_matrix_objective_threshold pos_skew neg_skew ranges).2)

/-- Modelled from the spec: a pipeline sub-component as seed propagation sees it — its
name plus the random seed explicitly supplied at its own construction, if any. -/
structure MockComponent where
  name : String
  random_seed : Option ℕ
deriving DecidableEq

/-- Modelled from the spec: pipeline construction assigns every component its
effective seed — the explicitly supplied one when present, otherwise the
pipeline-level seed. -/
def initComponents (comps : List MockComponent) (pipeline_seed : ℕ) :
    List MockComponent :=
  comps.map (fun c => { c with random_seed := some (c.random_seed.getD pipeline_seed) })

/-- Modelled from the spec: a constructed pipeline — its components after seed
propagation plus its own seed. -/
structure MockPipeline where
  components : List MockComponent
  random_seed : ℕ
deriving DecidableEq

/-- Modelled from the spec: pipeline construction with an explicit pipeline seed. -/
def makePipeline (comps : List MockComponent) (seed : ℕ) : MockPipeline :=
  ⟨initComponents comps seed, seed⟩

/-- Model of the Python values an argument like `n_jobs` can take. -/
inductive PyValue : Type
  | int (n : ℤ)
  | float (q : ℚ)
  | str (s : String)
  | pynone
deriving DecidableEq

/-- Is the value a Python integer? -/
def PyValue.isInt : PyValue → Bool
  | .int _ => true
  | _ => false

/-- Modelled from the spec: the `n_jobs` validation of `PipelineBase.__init__` (absent
from the excerpt): raise `ValueError` when `n_jobs` is zero or is neither an integer
nor `None`; `test_n_jobs` pins that `None` and any non-zero integer (positive or
negative) are accepted while `0` and the string `"5"` are rejected. -/
def validate_n_jobs : PyValue → Except String Unit
  | .int n => if n = 0 then .error "n_jobs must be an non-zero integer." else .ok ()
  | .pynone => .ok ()
  | _ => .error "n_jobs must be an non-zero integer."

/-- Modelled from the spec: a pipeline component together with the component-level
hyperparameters supplied at construction. -/
structure PLComponent where
  name : String
  parameters : List (String × PyValue)
deriving DecidableEq

/-- Modelled from the spec: the One Hot Encoder component (no hyperparameters). -/
def OneHotEncoder : PLComponent := ⟨"One Hot Encoder", []⟩

/-- Modelled from the spec: the Simple Imputer component with its strategy. -/
def SimpleImputer (impute_strategy : PyValue) : PLComponent :=
  ⟨"Simple Imputer", [("impute_strategy", impute_strategy)]⟩

/-- Modelled from the spec: the Standard Scaler component (no hyperparameters). -/
def StandardScaler : PLComponent := ⟨"Standard Scaler", []⟩

/-- Modelled from the spec: the Logistic Regression Classifier component with its
`penalty` and `C` hyperparameters. -/
def LogisticRegressionClassifier (penalty C : PyValue) : PLComponent :=
  ⟨"Logistic Regression Classifier", [("penalty", penalty), ("C", C)]⟩

/-- Modelled from the spec: a pipeline — its components plus pipeline-level
metadata (objective, number of features, `n_jobs`, random state). -/
structure LRPipeline where
  objective : String
  component_list : List PLComponent
  number_features : ℕ
  n_jobs : PyValue
  random_state : ℕ
deriving DecidableEq

/-- Modelled from the spec: the `LogisticRegressionPipeline` constructor of the
excerpt's `test_pipelines.py` — encoder, imputer, scaler and classifier built from the
component-level arguments, the rest held as pipeline-level metadata. -/
def LogisticRegressionPipeline (objective : String)
    (penalty C impute_strategy : PyValue) (number_features : ℕ) (n_jobs : PyValue)
    (random_state : ℕ) : LRPipeline :=
  ⟨objective,
    [OneHotEncoder, SimpleImputer impute_strategy, StandardScaler,
      LogisticRegressionClassifier penalty C],
    number_features, n_jobs, random_state⟩

/-- The pipeline's `parameters` property: the union of the hyperparameter mappings of
its components. -/
def LRPipeline.parameters (p : LRPipeline) : List (String × PyValue) :=
  (p.component_list.map PLComponent.parameters).flatten

/-- The confusion-matrix list emitted by the sweep, in closed form: entry `i` is
`codeConfusionAt` shifted by the starting cumulative counts. -/
theorem sweepAux_fst (total_pos total_neg : ℕ) (ps : List ℕ) :
    ∀ (ns : List ℕ) (rs : List ℚ) (cp cn : ℕ) (best : Objective → ℚ × ℚ),
      ns.length = ps.length → rs.length = ps.length + 1 →
      (sweepAux total_pos total_neg ps ns rs cp cn best).1 =
        (List.range ps.length).map (fun i =>
          [total_pos - (cp + (ps.take (i + 1)).sum), cn + (ns.take (i + 1)).sum,
            total_neg - (cn + (ns.take (i + 1)).sum), cp + (ps.take (i + 1)).sum]) := by
  induction ps with
  | nil => intro ns rs cp cn best h1 h2; simp [sweepAux]
  | cons p ps ih =>
    intro ns rs cp cn best h1 h2
    cases ns with
    | nil => simp at h1
    | cons n ns =>
      cases rs with
      | nil => simp at h2
      | cons r rs =>
        simp only [sweepAux]
        rw [ih ns rs (cp + p) (cn + n) _ (by simpa using h1) (by simpa using h2)]
        simp only [List.length_cons, List.range_succ_eq_map, List.map_cons, List.map_map]
        refine List.cons_eq_cons.mpr ⟨by simp, ?_⟩
        refine List.map_congr_left fun i _ => ?_
        simp [Function.comp, List.take_succ_cons, Nat.add_assoc]

/-- Every confusion matrix produced by the sweep sums to the two totals, provided the
running cumulative counts plus the remaining histogram mass equal the totals. -/
theorem sweepAux_mem_sum (total_pos total_neg : ℕ) (ps : List ℕ) :
    ∀ (ns : List ℕ) (rs : List ℚ) (cp cn : ℕ) (best : Objective → ℚ × ℚ) (cm : List ℕ),
      cm ∈ (sweepAux total_pos total_neg ps ns rs cp cn best).1 →
      cp + ps.sum = total_pos → cn + ns.sum = total_neg →
      cm.sum = total_pos + total_neg := by
  induction ps with
  | nil => intro ns rs cp cn best cm hmem _ _; simp [sweepAux] at hmem
  | cons p ps ih =>
    intro ns rs cp cn best cm hmem hp hn
    cases ns with
    | nil => simp [sweepAux] at hmem
    | cons n ns =>
      cases rs with
      | nil => simp [sweepAux] at hmem
      | cons r rs =>
        simp only [sweepAux, List.mem_cons] at hmem
        rcases hmem with rfl | hmem
        · simp only [List.sum_cons] at hp hn
          simp only [List.sum_cons, List.sum_nil]
          omega
        · exact ih ns rs (cp + p) (cn + n) _ cm hmem
            (by simp only [List.sum_cons] at hp; omega)
            (by simp only [List.sum_cons] at hn; omega)

/-- C1 counterexample: at `pos_skew = [0,1]`, `neg_skew = [1,0]`, `ranges = [0,1/2,1]`
the sweep's first confusion matrix is `[1, 1, 0, 0]` (slot 2 = cumulative negatives,
slot 4 = cumulative positives), whereas the claim's formula `[tp, cum_pos, fp, cum_neg]`
prescribes `[1, 0, 0, 1]`. -/
theorem c1_counterexample :
    ((_find_confusion_matrix_objective_threshold [0, 1] [1, 0] [0, 1/2, 1]).1)[0]? =
        some [1, 1, 0, 0] ∧
      specConfusionAt [0, 1] [1, 0] 0 = [1, 0, 0, 1] ∧
      ([1, 1, 0, 0] : List ℕ) ≠ [1, 0, 0, 1] :=
  ⟨by decide, by decide, by decide⟩

/-- C1 (amended): walking bin edges lowest to highest with cumulative counts `cum_pos`
and `cum_neg`, the confusion matrix produced by
`_find_confusion_matrix_objective_threshold` at edge `i` is, in this order,
`[total_positive - cum_pos, cum_neg, total_negative - cum_neg, cum_pos]` — the
cumulative negative count sits in the second slot and the cumulative positive count in
the fourth, the transpose of the claimed `[tp, fn, fp, tn]` layout. -/
theorem c1_confusion_matrix_amended (pos_skew neg_skew : List ℕ) (ranges : List ℚ)
    (h1 : neg_skew.length = pos_skew.length) (h2 : ranges.length = pos_skew.length + 1)
    (i : ℕ) (hi : i < pos_skew.length) :
    ((_find_confusion_matrix_objective_threshold pos_skew neg_skew ranges).1)[i]? =
      some (codeConfusionAt pos_skew neg_skew i) := by
  unfold _find_confusion_matrix_objective_threshold
  rw [sweepAux_fst pos_skew.sum neg_skew.sum pos_skew neg_skew ranges 0 0 _ h1 h2]
  simp [codeConfusionAt, hi]

/-- Witness for C1 (amended) at the counterexample's input. -/
theorem c1_confusion_matrix_amended_witness :
    ((_find_confusion_matrix_objective_threshold [0, 1] [1, 0] [0, 1/2, 1]).1)[0]? =
      some (codeConfusionAt [0, 1] [1, 0] 0) :=
  c1_confusion_matrix_amended [0, 1] [1, 0] [0, 1/2, 1] (by decide) (by decide) 0
    (by decide)

/-- C3: every confusion matrix in the sweep output sums to
`total_positive + total_negative`, the totals being the histogram sums. -/
theorem c3_confusion_sum_invariant (pos_skew neg_skew : List ℕ) (ranges : List ℚ)
    (cm : List ℕ)
    (hmem : cm ∈ (_find_confusion_matrix_objective_threshold pos_skew neg_skew ranges).1) :
    cm.sum = pos_skew.sum + neg_skew.sum :=
  sweepAux_mem_sum pos_skew.sum neg_skew.sum pos_skew neg_skew ranges 0 0 _ cm hmem
    (by simp) (by simp)

/-- Witness for C3 on a concrete sweep. -/
theorem c3_confusion_sum_invariant_witness :
    ([1, 1, 0, 0] : List ℕ).sum = ([0, 1] : List ℕ).sum + ([1, 0] : List ℕ).sum :=
  c3_confusion_sum_invariant [0, 1] [1, 0] [0, 1/2, 1] [1, 1, 0, 0] (by decide)

/-- The recorded best value never decreases under an update. -/
theorem updateBest_fst_le (b p : ℚ × ℚ) : b.1 ≤ (updateBest b p).1 := by
  unfold updateBest; split
  · exact le_of_lt (by assumption)
  · exact le_refl _

/-- The value just examined is bounded by the recorded best value after the update. -/
theorem snd_le_updateBest (b p : ℚ × ℚ) : p.2 ≤ (updateBest b p).1 := by
  unfold updateBest; split
  · exact le_refl _
  · exact le_of_not_lt (by assumption)

/-- Master property of the strict-improvement best-tracking fold: the recorded best
value only grows, it bounds every examined value, and either nothing ever improved on
the start or the final value is attained, strictly improves on the start, and the
reported threshold is the one paired with the first attaining value. -/
theorem foldl_updateBest_master (l : List (ℚ × ℚ)) :
    ∀ b : ℚ × ℚ,
      b.1 ≤ (l.foldl updateBest b).1 ∧
      (∀ p ∈ l, p.2 ≤ (l.foldl updateBest b).1) ∧
      (l.foldl updateBest b = b ∨
        ((l.foldl updateBest b).1 ∈ l.map Prod.snd ∧ b.1 < (l.foldl updateBest b).1 ∧
          l.find? (fun p => decide (p.2 = (l.foldl updateBest b).1)) =
            some ((l.foldl updateBest b).2, (l.foldl updateBest b).1))) := by
  induction l with
  | nil => intro b; simp
  | cons p l ih =>
    intro b
    simp only [List.foldl_cons]
    obtain ⟨hgrow, hbound, hdisj⟩ := ih (updateBest b p)
    have hb1 : b.1 ≤ (updateBest b p).1 := updateBest_fst_le b p
    have hp1 : p.2 ≤ (updateBest b p).1 := snd_le_updateBest b p
    refine ⟨le_trans hb1 hgrow, ?_, ?_⟩
    · intro q hq
      rcases List.mem_cons.mp hq with rfl | hq
      · exact le_trans hp1 hgrow
      · exact hbound q hq
    · rcases hdisj with heq | ⟨hmem, hlt, hfind⟩
      · simp only [heq]
        by_cases hcase : b.1 < p.2
        · refine Or.inr ?_
          have hup : updateBest b p = (p.2, p.1) := if_pos hcase
          simp only [hup]
          refine ⟨by simp, hcase, ?_⟩
          rw [List.find?_cons_of_pos _ (by simp)]
        · have hup : updateBest b p = b := if_neg hcase
          exact Or.inl hup
      · refine Or.inr ⟨List.mem_cons_of_mem _ hmem, lt_of_le_of_lt hb1 hlt, ?_⟩
        rw [List.find?_cons_of_neg, hfind]
        simp only [decide_eq_true_eq]
        exact ne_of_lt (lt_of_le_of_lt hp1 hlt)

/-- The objective summary of the sweep is the strict-improvement fold of
`updateBest` over the bin edges paired with the objective values of the emitted
confusion matrices. -/
theorem sweepAux_snd (total_pos total_neg : ℕ) (ps : List ℕ) :
    ∀ (ns : List ℕ) (rs : List ℚ) (cp cn : ℕ) (best : Objective → ℚ × ℚ) (o : Objective),
      ns.length = ps.length → rs.length = ps.length + 1 →
      (sweepAux total_pos total_neg ps ns rs cp cn best).2 o =
        ((rs.take ps.length).zip
            ((sweepAux total_pos total_neg ps ns rs cp cn best).1.map o.fn)).foldl
          updateBest (best o) := by
  induction ps with
  | nil => intro ns rs cp cn best o h1 h2; simp [sweepAux]
  | cons p ps ih =>
    intro ns rs cp cn best o h1 h2
    cases ns with
    | nil => simp at h1
    | cons n ns =>
      cases rs with
      | nil => simp at h2
      | cons r rs =>
        simp only [sweepAux]
        rw [ih ns rs (cp + p) (cn + n) _ o (by simpa using h1) (by simpa using h2)]
        simp [List.take_succ_cons]

/-- `_accuracy` is nonnegative. -/
theorem _accuracy_nonneg (v : List ℕ) : 0 ≤ _accuracy v := by
  unfold _accuracy; split
  · positivity
  · exact le_refl 0

/-- `_precision` is nonnegative. -/
theorem _precision_nonneg (v : List ℕ) : 0 ≤ _precision v := by
  unfold _precision; split
  · positivity
  · exact le_refl 0

/-- `_recall` is nonnegative. -/
theorem _recall_nonneg (v : List ℕ) : 0 ≤ _recall v := by
  unfold _recall; split
  · positivity
  · exact le_refl 0

/-- `_balanced_accuracy` is nonnegative. -/
theorem _balanced_accuracy_nonneg (v : List ℕ) : 0 ≤ _balanced_accuracy v := by
  unfold _balanced_accuracy; split
  · positivity
  · exact le_refl 0

/-- `_f1` is nonnegative. -/
theorem _f1_nonneg (v : List ℕ) : 0 ≤ _f1 v := by
  have hp := _precision_nonneg v
  have hr := _recall_nonneg v
  unfold _f1
  exact div_nonneg (by positivity) (by positivity)

/-- Every objective value is nonnegative. -/
theorem objective_fn_nonneg (o : Objective) (cm : List ℕ) : 0 ≤ o.fn cm := by
  cases o
  · exact _accuracy_nonneg cm
  · exact _balanced_accuracy_nonneg cm
  · exact _precision_nonneg cm
  · exact _recall_nonneg cm
  · exact _f1_nonneg cm

/-- C4: for each of the five fixed objectives, the sweep summary records the maximum
objective value over all bin edges, and the threshold it reports is the edge of the
first pair attaining that maximum — `find?` returns the earliest match, so on ties the
earlier (lower-threshold) edge wins, never a later edge with an equal value. -/
theorem c4_best_threshold_first_max (pos_skew neg_skew : List ℕ) (ranges : List ℚ)
    (h1 : neg_skew.length = pos_skew.length) (h2 : ranges.length = pos_skew.length + 1)
    (h0 : ranges[0]? = some 0) (hne : pos_skew ≠ []) (o : Objective) :
    (∀ v ∈ (sweepConf pos_skew neg_skew ranges).map o.fn,
        v ≤ (sweepBest pos_skew neg_skew ranges o).1) ∧
      (sweepBest pos_skew neg_skew ranges o).1 ∈
        (sweepConf pos_skew neg_skew ranges).map o.fn ∧
      ((ranges.take pos_skew.length).zip
            ((sweepConf pos_skew neg_skew ranges).map o.fn)).find?
          (fun p => decide (p.2 = (sweepBest pos_skew neg_skew ranges o).1)) =
        some ((sweepBest pos_skew neg_skew ranges o).2,
          (sweepBest pos_skew neg_skew ranges o).1) := by
  have hfst := sweepAux_fst pos_skew.sum neg_skew.sum pos_skew neg_skew ranges 0 0
    (fun _ => (0, 0)) h1 h2
  have hsnd := sweepAux_snd pos_skew.sum neg_skew.sum pos_skew neg_skew ranges 0 0
    (fun _ => (0, 0)) o h1 h2
  simp only [sweepConf, sweepBest, _find_confusion_matrix_objective_threshold] at *
  simp only [hsnd]
  set M := (sweepAux pos_skew.sum neg_skew.sum pos_skew neg_skew ranges 0 0
      (fun _ => (0, 0))).1.map o.fn with hM_def
  set P := (ranges.take pos_skew.length).zip M with hP_def
  have hlen_pos : 0 < pos_skew.length := List.length_pos.mpr hne
  have hMlen : M.length = pos_skew.length := by
    rw [hM_def, List.length_map, hfst]
    simp
  have htake : (ranges.take pos_skew.length).length = pos_skew.length := by
    rw [List.length_take, h2]
    omega
  have hPsnd : P.map Prod.snd = M := by
    rw [hP_def]
    exact List.map_snd_zip _ _ (by rw [hMlen, htake])
  have hnn : ∀ v ∈ M, 0 ≤ v := by
    intro v hv
    rw [hM_def] at hv
    obtain ⟨cm, _, rfl⟩ := List.mem_map.mp hv
    exact objective_fn_nonneg o cm
  obtain ⟨hgrow, hbound, hdisj⟩ := foldl_updateBest_master P ((0 : ℚ), (0 : ℚ))
  refine ⟨?_, ?_⟩
  · intro v hv
    rw [← hPsnd] at hv
    obtain ⟨p, hp, rfl⟩ := List.mem_map.mp hv
    exact hbound p hp
  rcases hdisj with heq | ⟨hmem, _, hfind⟩
  swap
  · exact ⟨hPsnd ▸ hmem, hfind⟩
  simp only [heq]
  have hMne : M ≠ [] := List.ne_nil_of_length_pos (by omega)
  obtain ⟨m0, M1, hM1⟩ := List.exists_cons_of_ne_nil hMne
  have hTne : ranges.take pos_skew.length ≠ [] :=
    List.ne_nil_of_length_pos (by omega)
  obtain ⟨t0, T1, hT1⟩ := List.exists_cons_of_ne_nil hTne
  have ht0 : t0 = 0 := by
    have hel : (ranges.take pos_skew.length)[0]? = some t0 := by rw [hT1]; simp
    rw [List.getElem?_take_of_lt hlen_pos, h0] at hel
    exact (Option.some_inj.mp hel).symm
  have hm0M : m0 ∈ M := hM1 ▸ List.mem_cons_self m0 M1
  have hm0 : m0 = 0 := by
    have hle : m0 ≤ (P.foldl updateBest ((0 : ℚ), (0 : ℚ))).1 := by
      refine hbound (t0, m0) ?_
      rw [hP_def, hT1, hM1]
      exact List.mem_cons_self _ _
    rw [heq] at hle
    exact le_antisymm hle (hnn m0 hm0M)
  constructor
  · exact hm0 ▸ hm0M
  · rw [hP_def, hT1, hM1, List.zip_cons_cons, List.find?_cons_of_pos]
    · rw [ht0, hm0]
    · simp [hm0]

/-- C2 counterexample: read as the claim's `[tp, fn, fp, tn]`, the claimed closed form
`accuracy = (tp + tn) / total` evaluates to `7/10` at `[40, 20, 10, 30]`, but
`_accuracy` returns `3/5` — the value the claim itself records — so the claimed slot
layout contradicts the claimed concrete values. -/
theorem c2_counterexample :
    _accuracy [40, 20, 10, 30] = 3/5 ∧ ((40 : ℚ) + 30) / (40 + 20 + 10 + 30) = 7/10 ∧
      (3 : ℚ)/5 ≠ 7/10 :=
  ⟨by norm_num [_accuracy], by norm_num, by norm_num⟩

/-- C2 (amended): the five helpers are pure functions of the four-count list read in
the order `[tp, tn, fp, fn]`, matching `accuracy = (tp+tn)/total`,
`precision = tp/(tp+fp)`, `recall = tp/(tp+fn)`, balanced accuracy = mean of
`tp/(tp+fn)` and `tn/(tn+fp)`, and `F1` = harmonic mean of precision and recall, a
zero denominator contributing `0`; in particular `[40,20,10,30]` yields accuracy 0.6,
balanced accuracy 13/21, recall 4/7, precision 0.8, F1 2/3, and `[0,0,100,100]` yields
balanced accuracy 0. -/
theorem c2_objective_helpers_amended :
    (∀ tp tn fp fn : ℕ,
      _accuracy [tp, tn, fp, fn] = ((tp : ℚ) + tn) / ((tp : ℚ) + tn + fp + fn) ∧
      _precision [tp, tn, fp, fn] = (tp : ℚ) / ((tp : ℚ) + fp) ∧
      _recall [tp, tn, fp, fn] = (tp : ℚ) / ((tp : ℚ) + fn) ∧
      _balanced_accuracy [tp, tn, fp, fn] =
        ((tp : ℚ) / ((tp : ℚ) + fn) + (tn : ℚ) / ((tn : ℚ) + fp)) / 2 ∧
      _f1 [tp, tn, fp, fn] =
        2 * (_precision [tp, tn, fp, fn] * _recall [tp, tn, fp, fn]) /
          (_precision [tp, tn, fp, fn] + _recall [tp, tn, fp, fn])) ∧
    _accuracy [40, 20, 10, 30] = 3/5 ∧
    _balanced_accuracy [40, 20, 10, 30] = 13/21 ∧
    _recall [40, 20, 10, 30] = 4/7 ∧
    _precision [40, 20, 10, 30] = 4/5 ∧
    _f1 [40, 20, 10, 30] = 2/3 ∧
    _balanced_accuracy [0, 0, 100, 100] = 0 := by
  refine ⟨fun tp tn fp fn => ⟨rfl, rfl, rfl, rfl, rfl⟩, ?_, ?_, ?_, ?_, ?_, ?_⟩
  · norm_num [_accuracy]
  · norm_num [_balanced_accuracy]
  · norm_num [_recall]
  · norm_num [_precision]
  · norm_num [_f1, _precision, _recall]
  · norm_num [_balanced_accuracy]

/-- Witness for C4: the sweep over `pos_skew = [0,1]`, `neg_skew = [1,0]`,
`ranges = [0, 1/2, 1]`, for the accuracy objective. -/
theorem c4_best_threshold_first_max_witness :
    (∀ v ∈ (sweepConf [0, 1] [1, 0] [0, 1/2, 1]).map Objective.accuracy.fn,
        v ≤ (sweepBest [0, 1] [1, 0] [0, 1/2, 1] Objective.accuracy).1) ∧
      (sweepBest [0, 1] [1, 0] [0, 1/2, 1] Objective.accuracy).1 ∈
        (sweepConf [0, 1] [1, 0] [0, 1/2, 1]).map Objective.accuracy.fn ∧
      ((([0, 1/2, 1] : List ℚ).take ([0, 1] : List ℕ).length).zip
            ((sweepConf [0, 1] [1, 0] [0, 1/2, 1]).map Objective.accuracy.fn)).find?
          (fun p =>
            decide (p.2 = (sweepBest [0, 1] [1, 0] [0, 1/2, 1] Objective.accuracy).1)) =
        some ((sweepBest [0, 1] [1, 0] [0, 1/2, 1] Objective.accuracy).2,
          (sweepBest [0, 1] [1, 0] [0, 1/2, 1] Objective.accuracy).1) :=
  c4_best_threshold_first_max [0, 1] [1, 0] [0, 1/2, 1] (by decide) (by decide)
    (by simp) (by decide) Objective.accuracy

/-- A value strictly below every bin edge lies in none of the bins. -/
theorem binsContaining_eq_zero (v : ℚ) :
    ∀ (l : List ℚ) (b : ℚ), List.Chain' (· < ·) (b :: l) → v < b →
      binsContaining v (b :: l) = 0 := by
  intro l
  induction l with
  | nil => intro b _ _; simp [binsContaining]
  | cons c rest ih =>
    intro b hchain hv
    have hbc : b < c := (List.chain'_cons.mp hchain).1
    have hfalse : inBin b c rest.isEmpty v = false := by
      simp [inBin, not_le.mpr hv]
    have hrec := ih c (List.chain'_cons.mp hchain).2 (hv.trans hbc)
    show (if inBin b c rest.isEmpty v then 1 else 0) + binsContaining v (c :: rest) = 0
    rw [hfalse, hrec]
    simp

/-- With strictly sorted edges, a value between the first and the last edge lies in
exactly one bin (the final bin is closed above). -/
theorem binsContaining_eq_one (v : ℚ) :
    ∀ (l : List ℚ) (a rN : ℚ), List.Chain' (· < ·) (a :: l) → l ≠ [] →
      a ≤ v → (a :: l).getLast? = some rN → v ≤ rN →
      binsContaining v (a :: l) = 1 := by
  intro l
  induction l with
  | nil => intro a rN _ hne _ _ _; exact absurd rfl hne
  | cons b rest ih =>
    intro a rN hchain _ hav hlast hvN
    have hchain2 : List.Chain' (· < ·) (b :: rest) := (List.chain'_cons.mp hchain).2
    cases rest with
    | nil =>
      have hbN : rN = b := by
        simp only [List.getLast?_cons_cons, List.getLast?_singleton] at hlast
        exact (Option.some_inj.mp hlast).symm
      have hvb : v ≤ b := hbN ▸ hvN
      have htrue : inBin a b true v = true := by
        rcases lt_or_eq_of_le hvb with h | h
        · simp [inBin, hav, h]
        · subst h
          simp [inBin, hav]
      show (if inBin a b ([] : List ℚ).isEmpty v then 1 else 0) + binsContaining v [b] = 1
      have hnil : binsContaining v [b] = 0 := by simp [binsContaining]
      rw [List.isEmpty_nil, htrue, hnil]
      simp
    | cons c rest2 =>
      have hone :
          (if inBin a b (c :: rest2).isEmpty v then 1 else 0) +
            binsContaining v (b :: c :: rest2) = 1 →
          binsContaining v (a :: b :: c :: rest2) = 1 := fun h => h
      refine hone ?_
      by_cases hvb : v < b
      · have htrue : inBin a b (c :: rest2).isEmpty v = true := by
          simp [inBin, hav, hvb]
        rw [htrue, binsContaining_eq_zero v (c :: rest2) b hchain2 hvb]
        simp
      · have hbv : b ≤ v := le_of_not_lt hvb
        have hfalse : inBin a b (c :: rest2).isEmpty v = false := by
          simp [inBin, hvb]
        rw [hfalse, ih b rN hchain2 (by simp) hbv (by simpa using hlast) hvN]
        simp

/-- Multiplicity of a row index inside one bin's full selection. -/
theorem count_binIndices (data : List ℚ) (lo hi : ℚ) (isLast : Bool) (j : ℕ)
    (hj : j < data.length) :
    (binIndices data lo hi isLast).count j =
      if inBin lo hi isLast (data.getD j 0) then 1 else 0 := by
  unfold binIndices
  by_cases h : inBin lo hi isLast (data.getD j 0)
  · rw [if_pos h, List.count_filter (by simpa using h)]
    exact List.count_eq_one_of_mem (List.nodup_range _) (List.mem_range.mpr hj)
  · rw [if_neg h]
    refine List.count_eq_zero_of_not_mem fun hmem => ?_
    exact h (by simpa using (List.mem_filter.mp hmem).2)

/-- With the sentinel `top_k = -1`, a row index appears in the concatenation of the
per-bin selections once per bin containing its value. -/
theorem count_fdbr_aux (data : List ℚ) (j : ℕ) (hj : j < data.length) :
    ∀ ranges : List ℚ,
      ((_fdbr_aux data (-1) ranges).flatten).count j =
        binsContaining (data.getD j 0) ranges
  | [] => by simp [_fdbr_aux, binsContaining]
  | [a] => by simp [_fdbr_aux, binsContaining]
  | a :: b :: rest => by
    show ((binIndices data a b rest.isEmpty :: _fdbr_aux data (-1) (b :: rest)).flatten).count j =
      binsContaining (data.getD j 0) (a :: b :: rest)
    rw [List.flatten_cons, List.count_append,
      count_binIndices data a b rest.isEmpty j hj,
      count_fdbr_aux data j hj (b :: rest)]
    rfl

/-- Every selected row reference is a valid row index. -/
theorem mem_fdbr_aux_lt (data : List ℚ) (k : ℤ) :
    ∀ (ranges : List ℚ) (sel : List ℕ) (j : ℕ),
      sel ∈ _fdbr_aux data k ranges → j ∈ sel → j < data.length
  | [], sel, j, hsel, _ => by simp [_fdbr_aux] at hsel
  | [a], sel, j, hsel, _ => by simp [_fdbr_aux] at hsel
  | a :: b :: rest, sel, j, hsel, hj => by
    unfold _fdbr_aux at hsel
    rw [List.mem_cons] at hsel
    rcases hsel with rfl | hsel
    · have hj2 : j ∈ binIndices data a b rest.isEmpty := by
        split at hj
        · exact hj
        · exact List.mem_of_mem_take hj
      have := (List.mem_filter.mp hj2).1
      simpa using this
    · exact mem_fdbr_aux_lt data k (b :: rest) sel j hsel hj

/-- With a non-negative `top_k`, every per-bin selection has at most `top_k` rows and
no duplicates. -/
theorem fdbr_aux_sel (data : List ℚ) (k : ℤ) (hk : 0 ≤ k) :
    ∀ (ranges : List ℚ) (sel : List ℕ), sel ∈ _fdbr_aux data k ranges →
      sel.length ≤ k.toNat ∧ sel.Nodup
  | [], sel, hsel => by simp [_fdbr_aux] at hsel
  | [a], sel, hsel => by simp [_fdbr_aux] at hsel
  | a :: b :: rest, sel, hsel => by
    have hknot : ¬ k = -1 := by omega
    unfold _fdbr_aux at hsel
    rw [if_neg hknot, List.mem_cons] at hsel
    rcases hsel with rfl | hsel
    · refine ⟨List.length_take_le _ _, ?_⟩
      exact ((List.nodup_range _).filter _).sublist (List.take_sublist _ _)
    · exact fdbr_aux_sel data k hk (b :: rest) sel hsel

/-- C5: with the sentinel `top_k = -1` the per-bin selections of
`_find_data_between_ranges` reconstruct every row exactly once — their concatenation
is a permutation of the full index range, so the selected references have cardinality
equal to the total row count — and with a non-negative `top_k` every bin's selection
has at most `top_k` rows, chosen without replacement. -/
theorem c5_data_between_ranges (data ranges : List ℚ) (r0 rN : ℚ)
    (hchain : List.Chain' (· < ·) ranges)
    (hhead : ranges.head? = some r0) (hlast : ranges.getLast? = some rN)
    (hlen : 2 ≤ ranges.length)
    (hbounds : ∀ v ∈ data, r0 ≤ v ∧ v ≤ rN) :
    ((_find_data_between_ranges data ranges (-1)).flatten).Perm
        (List.range data.length) ∧
      ∀ k : ℤ, 0 ≤ k → ∀ sel ∈ _find_data_between_ranges data ranges k,
        sel.length ≤ k.toNat ∧ sel.Nodup := by
  constructor
  · rw [List.perm_iff_count]
    intro j
    by_cases hj : j < data.length
    · have hv : data.getD j 0 ∈ data := by
        rw [List.getD_eq_getElem?_getD, List.getElem?_eq_getElem hj]
        exact List.getElem_mem hj
      rw [List.count_eq_one_of_mem (List.nodup_range _) (List.mem_range.mpr hj)]
      unfold _find_data_between_ranges
      rw [count_fdbr_aux data j hj ranges]
      cases ranges with
      | nil => simp at hlen
      | cons a l =>
        cases l with
        | nil => simp at hlen
        | cons b l2 =>
          have hr0 : r0 = a := by
            rw [List.head?_cons] at hhead
            exact (Option.some_inj.mp hhead).symm
          exact binsContaining_eq_one (data.getD j 0) (b :: l2) a rN hchain (by simp)
            (hr0 ▸ (hbounds _ hv).1) hlast (hbounds _ hv).2
    · have h1 : ((_find_data_between_ranges data ranges (-1)).flatten).count j = 0 := by
        refine List.count_eq_zero_of_not_mem fun hmem => ?_
        obtain ⟨sel, hsel, hjsel⟩ := List.mem_flatten.mp hmem
        exact hj (mem_fdbr_aux_lt data (-1) ranges sel j hsel hjsel)
      have h2 : (List.range data.length).count j = 0 :=
        List.count_eq_zero_of_not_mem (by simp [List.mem_range, hj])
      rw [h1, h2]
  · intro k hk sel hsel
    exact fdbr_aux_sel data k hk ranges sel hsel

/-- Witness for C5: two rows, two bins. -/
theorem c5_data_between_ranges_witness :
    ((_find_data_between_ranges [1/10, 3/5] [0, 1/2, 1] (-1)).flatten).Perm
        (List.range ([1/10, 3/5] : List ℚ).length) ∧
      ∀ k : ℤ, 0 ≤ k → ∀ sel ∈ _find_data_between_ranges [1/10, 3/5] [0, 1/2, 1] k,
        sel.length ≤ k.toNat ∧ sel.Nodup :=
  c5_data_between_ranges [1/10, 3/5] [0, 1/2, 1] 0 1
    (by norm_num [List.chain'_cons, List.chain'_singleton]) rfl rfl (by norm_num)
    (by
      intro v hv
      simp only [List.mem_cons, List.not_mem_nil, or_false] at hv
      rcases hv with rfl | rfl <;> norm_num)

/-- C6: relabeling the classes with fresh tokens via any injective relabeling, while
keeping the predicted probabilities and which rows are truly positive, leaves the
whole sweep result — histograms, per-bin confusion matrices, sampled rows and
objective summary — unchanged. -/
theorem c6_encoding_invariance {L M : Type} [DecidableEq L] [DecidableEq M]
    (proba : List ℚ) (y : List L) (pos : L) (ranges : List ℚ) (top_k : ℤ)
    (g : L → M) (hg : Function.Injective g) :
    find_confusion_matrix_per_thresholds proba (y.map g) (g pos) ranges top_k =
      find_confusion_matrix_per_thresholds proba y pos ranges top_k := by
  have h1 : ((proba.zip (y.map g)).filter (fun q => decide (q.2 = g pos))).map Prod.fst =
      ((proba.zip y).filter (fun q => decide (q.2 = pos))).map Prod.fst := by
    rw [List.zip_map_right, List.filter_map, List.map_map]
    have hpred : ((fun q : ℚ × M => decide (q.2 = g pos)) ∘ Prod.map id g) =
        (fun q : ℚ × L => decide (q.2 = pos)) := by
      funext q
      simp [Prod.map, hg.eq_iff]
    rw [hpred]
    rfl
  have h2 : ((proba.zip (y.map g)).filter (fun q => !decide (q.2 = g pos))).map Prod.fst =
      ((proba.zip y).filter (fun q => !decide (q.2 = pos))).map Prod.fst := by
    rw [List.zip_map_right, List.filter_map, List.map_map]
    have hpred : ((fun q : ℚ × M => !decide (q.2 = g pos)) ∘ Prod.map id g) =
        (fun q : ℚ × L => !decide (q.2 = pos)) := by
      funext q
      simp [Prod.map, hg.eq_iff]
    rw [hpred]
    rfl
  unfold find_confusion_matrix_per_thresholds
  rw [h1, h2]

/-- Witness for C6: relabeling `1`/`0` to `6`/`5` by the injection `n ↦ n + 5`. -/
theorem c6_encoding_invariance_witness :
    Function.Injective (fun n : ℕ => n + 5) ∧
      find_confusion_matrix_per_thresholds [1/2, 3/4] [6, 5] 6 [0, 1] (-1) =
        find_confusion_matrix_per_thresholds [1/2, 3/4] [1, 0] 1 [0, 1] (-1) :=
  have hg : Function.Injective (fun n : ℕ => n + 5) := fun a b h => by
    simpa using h
  ⟨hg, c6_encoding_invariance [1/2, 3/4] [1, 0] 1 [0, 1] (-1) (fun n => n + 5) hg⟩

/-- C8: constructing a pipeline with its own explicit seed keeps that seed at the
pipeline level, preserves verbatim every sub-component seed that was supplied at
sub-component construction time, and assigns the pipeline seed exactly to the
components that received none. -/
theorem c8_seed_preservation (comps : List MockComponent) (seed : ℕ) (i : ℕ)
    (c : MockComponent) (hc : comps[i]? = some c) :
    (makePipeline comps seed).random_seed = seed ∧
      (∀ s, c.random_seed = some s →
        (makePipeline comps seed).components[i]? =
          some { name := c.name, random_seed := some s }) ∧
      (c.random_seed = none →
        (makePipeline comps seed).components[i]? =
          some { name := c.name, random_seed := some seed }) := by
  refine ⟨rfl, ?_, ?_⟩
  · intro s hs
    show (initComponents comps seed)[i]? = _
    unfold initComponents
    rw [List.getElem?_map, hc]
    simp [hs]
  · intro hnone
    show (initComponents comps seed)[i]? = _
    unfold initComponents
    rw [List.getElem?_map, hc]
    simp [hnone]

/-- Witness for C8: the stacked-ensemble test's graph — estimators seeded 3 and 4, an
unseeded ensemble, pipeline seed 5. -/
theorem c8_seed_preservation_witness :
    (makePipeline
        [⟨"Random Forest", some 3⟩, ⟨"Random Forest B", some 4⟩,
          ⟨"Stacked Ensemble", none⟩] 5).random_seed = 5 ∧
      (∀ s, (⟨"Random Forest", some 3⟩ : MockComponent).random_seed = some s →
        (makePipeline
            [⟨"Random Forest", some 3⟩, ⟨"Random Forest B", some 4⟩,
              ⟨"Stacked Ensemble", none⟩] 5).components[0]? =
          some { name := "Random Forest", random_seed := some s }) ∧
      ((⟨"Random Forest", some 3⟩ : MockComponent).random_seed = none →
        (makePipeline
            [⟨"Random Forest", some 3⟩, ⟨"Random Forest B", some 4⟩,
              ⟨"Stacked Ensemble", none⟩] 5).components[0]? =
          some { name := "Random Forest", random_seed := some 5 }) :=
  c8_seed_preservation
    [⟨"Random Forest", some 3⟩, ⟨"Random Forest B", some 4⟩,
      ⟨"Stacked Ensemble", none⟩] 5 0 ⟨"Random Forest", some 3⟩ rfl

/-- C9 counterexample: `None` is not an integer value, yet construction accepts it,
contradicting the claim that every non-integer `n_jobs` fails with `ValueError`. -/
theorem c9_counterexample :
    validate_n_jobs PyValue.pynone = Except.ok () ∧ PyValue.pynone.isInt = false :=
  ⟨rfl, rfl⟩

/-- C9 (amended): constructing a pipeline with `n_jobs` equal to zero or to a
non-integer value other than `None` fails with a `ValueError` at construction time,
while any non-zero integer `n_jobs` (positive or negative) and `None` are accepted. -/
theorem c9_n_jobs_validation_amended :
    (∀ n : ℤ, n ≠ 0 → validate_n_jobs (PyValue.int n) = Except.ok ()) ∧
      validate_n_jobs PyValue.pynone = Except.ok () ∧
      validate_n_jobs (PyValue.int 0) =
        Except.error "n_jobs must be an non-zero integer." ∧
      (∀ s, validate_n_jobs (PyValue.str s) =
        Except.error "n_jobs must be an non-zero integer.") ∧
      (∀ q, validate_n_jobs (PyValue.float q) =
        Except.error "n_jobs must be an non-zero integer.") := by
  refine ⟨?_, rfl, rfl, fun s => rfl, fun q => rfl⟩
  intro n hn
  simp [validate_n_jobs, hn]

/-- Witness for C9 (amended): `n_jobs = -4` is accepted. -/
theorem c9_n_jobs_validation_amended_witness :
    validate_n_jobs (PyValue.int (-4)) = Except.ok () :=
  c9_n_jobs_validation_amended.1 (-4) (by decide)

/-- C10: the `parameters` property of a pipeline built with explicit component
hyperparameters is exactly the component-level mapping
`{impute_strategy, penalty, C}`; the pipeline-level constructor arguments
(`objective`, `number_features`, `n_jobs`, `random_state`) never appear among its
keys. -/
theorem c10_parameters (objective : String) (penalty C impute_strategy : PyValue)
    (number_features : ℕ) (n_jobs : PyValue) (random_state : ℕ) :
    (LogisticRegressionPipeline objective penalty C impute_strategy number_features
        n_jobs random_state).parameters =
      [("impute_strategy", impute_strategy), ("penalty", penalty), ("C", C)] ∧
    ∀ k ∈ ["objective", "number_features", "n_jobs", "random_state"],
      k ∉ ((LogisticRegressionPipeline objective penalty C impute_strategy
        number_features n_jobs random_state).parameters).map Prod.fst := by
  constructor
  · rfl
  · intro k hk
    have hkeys : ((LogisticRegressionPipeline objective penalty C impute_strategy
        number_features n_jobs random_state).parameters).map Prod.fst =
        ["impute_strategy", "penalty", "C"] := rfl
    rw [hkeys]
    simp only [List.mem_cons, List.not_mem_nil, or_false] at hk
    rcases hk with rfl | rfl | rfl | rfl <;> simp

/-- Witness for C10 at the test's concrete arguments. -/
theorem c10_parameters_witness :
    (LogisticRegressionPipeline "recall" (PyValue.str "l2") (PyValue.float 1)
        (PyValue.str "mean") 10 (PyValue.int (-1)) 0).parameters =
      [("impute_strategy", PyValue.str "mean"), ("penalty", PyValue.str "l2"),
        ("C", PyValue.float 1)] ∧
      "objective" ∉ ((LogisticRegressionPipeline "recall" (PyValue.str "l2")
        (PyValue.float 1) (PyValue.str "mean") 10 (PyValue.int (-1))
        0).parameters).map Prod.fst :=
  ⟨(c10_parameters "recall" (PyValue.str "l2") (PyValue.float 1) (PyValue.str "mean")
      10 (PyValue.int (-1)) 0).1,
    (c10_parameters "recall" (PyValue.str "l2") (PyValue.float 1) (PyValue.str "mean")
      10 (PyValue.int (-1)) 0).2 "objective" (by simp)⟩

end Evalml
